import Mathlib

/-!
Verification of the BME280 driver (`src/bme280.py`) and the environmental
logger (`src/env_logger.py`).

The floating-point compensation formulas are embedded over `ℚ` (exact
arithmetic standing in for IEEE doubles, with the same operation structure
and ordering); Python `int(x)` truncation is `ratTrunc`; Python exceptions
are `Option`/error values; the stateful sample loop is explicit state
passing over `LoggerState`.
-/

/-- Truncation toward zero of a rational number, the behaviour of Python
`int(x)` on a float. -/
def ratTrunc (q : ℚ) : ℤ := q.num.tdiv q.den

/-- Calibration coefficients of the BME280, mirroring the `CalibrationData`
dataclass of `bme280.py` (18 integer fields). -/
structure CalibrationData where
  dig_T1 : ℤ
  dig_T2 : ℤ
  dig_T3 : ℤ
  dig_P1 : ℤ
  dig_P2 : ℤ
  dig_P3 : ℤ
  dig_P4 : ℤ
  dig_P5 : ℤ
  dig_P6 : ℤ
  dig_P7 : ℤ
  dig_P8 : ℤ
  dig_P9 : ℤ
  dig_H1 : ℤ
  dig_H2 : ℤ
  dig_H3 : ℤ
  dig_H4 : ℤ
  dig_H5 : ℤ
  dig_H6 : ℤ

/-- Unsigned 16-bit little-endian assembly, `BME280._u16_le`. -/
def u16_le (b0 b1 : ℕ) : ℕ := b0 ||| (b1 <<< 8)

/-- Signed 16-bit little-endian decoding, `BME280._s16_le`: assemble
`low | (high << 8)` and, when bit 15 is set, fold to a negative value via
`-((value ^ 0xFFFF) + 1)`. -/
def s16_le (b0 b1 : ℕ) : ℤ :=
  let value := b0 ||| (b1 <<< 8)
  if value &&& 0x8000 ≠ 0 then -(((value ^^^ 0xFFFF) + 1 : ℕ) : ℤ)
  else (value : ℤ)

/-- Two-byte little-endian two's-complement encoding of an integer; for
`s` in `[-32768, 32767]` this is the byte pair whose decoding the
round-trip claim is about. -/
def enc16 (s : ℤ) : ℕ × ℕ :=
  let n := ((s + 65536).toNat) % 65536
  (n % 256, n / 256)

/-- Raw ADC assembly of `BME280.read_compensated` from the 8-byte burst
read: `adc_p = (d0 << 12) | (d1 << 4) | (d2 >> 4)`, likewise `adc_t` from
bytes 3..5, and `adc_h = (d6 << 8) | d7`. -/
def rawSample (d0 d1 d2 d3 d4 d5 d6 d7 : ℕ) : ℕ × ℕ × ℕ :=
  (((d0 <<< 12) ||| (d1 <<< 4)) ||| (d2 >>> 4),
   ((d3 <<< 12) ||| (d4 <<< 4)) ||| (d5 >>> 4),
   (d6 <<< 8) ||| d7)

/-- Layout described by the spec's words for C9, which say the *low byte*
of each three-byte group is *right-shifted by 12 bits*; stated here only to
be compared against `rawSample`, which is taken from the source. -/
def specShiftAdc (d0 d1 d2 : ℕ) : ℕ :=
  ((d0 <<< 12) ||| (d1 <<< 4)) ||| (d2 >>> 12)

/-- First term of `BME280._compensate_temperature`:
`(adc_t / 16384.0 - dig_T1 / 1024.0) * dig_T2`. -/
def tvar1 (c : CalibrationData) (adc_t : ℤ) : ℚ :=
  ((adc_t : ℚ) / 16384 - (c.dig_T1 : ℚ) / 1024) * (c.dig_T2 : ℚ)

/-- Second term of `BME280._compensate_temperature`:
`((adc_t / 131072.0 - dig_T1 / 8192.0) ** 2) * dig_T3`. -/
def tvar2 (c : CalibrationData) (adc_t : ℤ) : ℚ :=
  ((adc_t : ℚ) / 131072 - (c.dig_T1 : ℚ) / 8192) ^ 2 * (c.dig_T3 : ℚ)

/-- Model of `BME280._compensate_temperature`: returns the temperature in
degrees Celsius together with the updated temperature-fine value that the
source stores in `self._t_fine`. -/
def compensate_temperature (c : CalibrationData) (adc_t : ℤ) : ℚ × ℤ :=
  ((tvar1 c adc_t + tvar2 c adc_t) / 5120,
   ratTrunc (tvar1 c adc_t + tvar2 c adc_t))

/-- Denominator computed by the `var1` chain of `BME280._compensate_pressure`
(lines up to `var1 = (1.0 + var1 / 32768.0) * c.dig_P1`). -/
def pressure_var1 (c : CalibrationData) (t_fine : ℤ) : ℚ :=
  let v0 : ℚ := (t_fine : ℚ) / 2 - 64000
  let v1 : ℚ := ((c.dig_P3 : ℚ) * v0 * v0 / 524288 + (c.dig_P2 : ℚ) * v0) / 524288
  (1 + v1 / 32768) * (c.dig_P1 : ℚ)

/-- Model of `BME280._compensate_pressure`; `none` models the
`float("nan")` sentinel returned when the denominator `var1` is zero. -/
def compensate_pressure (c : CalibrationData) (t_fine : ℤ) (adc_p : ℤ) : Option ℚ :=
  let var1 : ℚ := (t_fine : ℚ) / 2 - 64000
  let var2a : ℚ := var1 * var1 * (c.dig_P6 : ℚ) / 32768
  let var2b : ℚ := var2a + var1 * (c.dig_P5 : ℚ) * 2
  let var2 : ℚ := var2b / 4 + (c.dig_P4 : ℚ) * 65536
  if pressure_var1 c t_fine = 0 then none
  else
    let p0 : ℚ := 1048576 - (adc_p : ℚ)
    let p : ℚ := (p0 - var2 / 4096) * 6250 / pressure_var1 c t_fine
    let w1 : ℚ := (c.dig_P9 : ℚ) * p * p / 2147483648
    let w2 : ℚ := p * (c.dig_P8 : ℚ) / 32768
    some ((p + (w1 + w2 + (c.dig_P7 : ℚ)) / 16) / 100)

/-- Model of `BME280._compensate_humidity`, including the final clamp of
the result into `[0.0, 100.0]`. -/
def compensate_humidity (c : CalibrationData) (t_fine : ℤ) (adc_h : ℤ) : ℚ :=
  let v0 : ℚ := (t_fine : ℚ) - 76800
  let v1 : ℚ :=
    ((adc_h : ℚ) - ((c.dig_H4 : ℚ) * 64 + (c.dig_H5 : ℚ) / 16384 * v0))
      * ((c.dig_H2 : ℚ) / 65536)
      * (1 + (c.dig_H6 : ℚ) / 67108864 * v0 * (1 + (c.dig_H3 : ℚ) / 67108864 * v0))
  let v2 : ℚ := v1 * (1 - (c.dig_H1 : ℚ) * v1 / 524288)
  if v2 > 100 then 100 else if v2 < 0 then 0 else v2

/-- Canonical calibration fixture from the spec: `dig_T1 = 27504`,
`dig_T2 = 26435`, `dig_T3 = -1000`; the remaining coefficients are not used
by temperature compensation. -/
def fixtureCalib : CalibrationData :=
  ⟨27504, 26435, -1000, 0, 0, 0, 0, 0, 0, 0, 0, 0, 0, 0, 0, 0, 0, 0⟩

/-- State of one `MovingAverage` instance of `env_logger.py`: the capacity
(`self.window`), the deque contents and the running sum. -/
structure AvgState where
  window : ℕ
  buffer : List ℚ
  sum : ℚ

/-- A freshly constructed `MovingAverage(window)`. -/
def initAvg (w : ℕ) : AvgState := ⟨w, [], 0⟩

/-- Total model of `MovingAverage.add` (faithful for `window ≥ 1`): when the
deque is full the evicted head is subtracted from the running sum before the
new value is appended. -/
def addAvg (st : AvgState) (v : ℚ) : AvgState :=
  if st.buffer.length = st.window then
    { st with buffer := st.buffer.tail ++ [v], sum := st.sum - st.buffer.headI + v }
  else
    { st with buffer := st.buffer ++ [v], sum := st.sum + v }

/-- Error-aware model of `MovingAverage.add`: `none` models the
`IndexError` raised by `self.buffer[0]` when the full test
`len(buffer) == window` holds on an empty deque (window = 0). -/
def addAvgE (st : AvgState) (v : ℚ) : Option AvgState :=
  if st.buffer.length = st.window then
    match st.buffer with
    | [] => none
    | h :: t => some { st with buffer := t ++ [v], sum := st.sum - h + v }
  else
    some { st with buffer := st.buffer ++ [v], sum := st.sum + v }

/-- Fold of `addAvgE` over a list of added values. -/
def addAllE (st : AvgState) : List ℚ → Option AvgState
  | [] => some st
  | v :: vs =>
    match addAvgE st v with
    | none => none
    | some st2 => addAllE st2 vs

/-- Model of `MovingAverage.mean`: `none` when the buffer is empty,
otherwise the running sum divided by the current count. -/
def meanAvg (st : AvgState) : Option ℚ :=
  if st.buffer = [] then none else some (st.sum / (st.buffer.length : ℚ))

/-- One compensated reading (temperature, pressure, humidity). -/
abbrev Reading := ℚ × ℚ × ℚ

/-- State of `EnvLogger` that `_tick` reads and writes: the configured
window size, the `freeze_on_error` flag, the three smoothing windows, and
the `last_success_minute` / `last_saved_minute` bucket markers. -/
structure LoggerState where
  cfgWindow : ℕ
  freezeOnError : Bool
  tempAvg : AvgState
  pressAvg : AvgState
  humAvg : AvgState
  lastSuccess : Option ℤ
  lastSaved : Option ℤ

/-- A freshly constructed `EnvLogger` (windows empty, no bucket recorded). -/
def initLogger (w : ℕ) (freeze : Bool) : LoggerState :=
  ⟨w, freeze, initAvg w, initAvg w, initAvg w, none, none⟩

/-- The try/except phase of `EnvLogger._tick`: on a successful reading push
the three values and record the success bucket; on failure leave the
windows untouched under the freeze policy or replace them by fresh windows
of the configured capacity under the reset policy. -/
def readPhase (st : LoggerState) (minute : ℤ) (reading : Option Reading) : LoggerState :=
  match reading with
  | some (t, p, h) =>
    { st with
      tempAvg := addAvg st.tempAvg t
      pressAvg := addAvg st.pressAvg p
      humAvg := addAvg st.humAvg h
      lastSuccess := some minute }
  | none =>
    if st.freezeOnError then st
    else
      { st with
        tempAvg := initAvg st.cfgWindow
        pressAvg := initAvg st.cfgWindow
        humAvg := initAvg st.cfgWindow }

/-- Whether `EnvLogger._current_payload` returns a payload: all three
window means are defined, i.e. no buffer is empty. -/
def payloadReady (st : LoggerState) : Bool :=
  !st.tempAvg.buffer.isEmpty && (!st.pressAvg.buffer.isEmpty && !st.humAvg.buffer.isEmpty)

/-- Model of `EnvLogger._tick` restricted to the minute-record path: given
the store-interval bucket of the current time and the outcome of the sensor
read, returns the new state and whether a `MinuteRecord` row was written
(`_write_minute_row` writes only when the payload is available). -/
def tick (st : LoggerState) (minute : ℤ) (reading : Option Reading) :
    LoggerState × Bool :=
  let st1 := readPhase st minute reading
  if some minute ≠ st1.lastSaved then
    let st2 := { st1 with lastSaved := some minute }
    if st1.lastSuccess = some minute then (st2, payloadReady st2)
    else (st2, false)
  else (st1, false)

/-- Final state after a run of ticks (list of bucket/reading pairs). -/
def runState (st : LoggerState) : List (ℤ × Option Reading) → LoggerState
  | [] => st
  | (m, r) :: rest => runState (tick st m r).1 rest

/-- Per-tick emission trace of a run: each element pairs the tick's bucket
with whether that tick wrote a `MinuteRecord`. -/
def runEmits (st : LoggerState) : List (ℤ × Option Reading) → List (ℤ × Bool)
  | [] => []
  | (m, r) :: rest => (m, (tick st m r).2) :: runEmits (tick st m r).1 rest

/-- Number of `MinuteRecord` emissions for bucket `m` in an emission trace. -/
def countEmit (m : ℤ) (l : List (ℤ × Bool)) : ℕ :=
  (l.filter fun p => p.1 == m && p.2).length

/-- Bucket value `b` is at most `m` whenever `b` is present. -/
def leOpt (mp : Option ℤ) (m : ℤ) : Prop := ∀ b : ℤ, mp = some b → b ≤ m

/-- The bucket indices of a run are nondecreasing, starting from an
optional previous bucket (wall-clock time moves forward). -/
def chainOK : Option ℤ → List (ℤ × Option Reading) → Prop
  | _, [] => True
  | mp, (m, _) :: rest => leOpt mp m ∧ chainOK (some m) rest

/-- Bucket of the last processed tick, if any. -/
def lastMin (mp : Option ℤ) : List (ℤ × Option Reading) → Option ℤ
  | [] => mp
  | (m, _) :: rest => lastMin (some m) rest

/-! ## Helper lemmas -/

theorem or_shiftLeft_eq_add (a b k : ℕ) (hb : b < 2 ^ k) :
    (a <<< k) ||| b = a * 2 ^ k + b := by
  rw [Nat.shiftLeft_eq, mul_comm, ← Nat.mul_add_lt_is_or hb, mul_comm]

theorem xor_all_ones {k v : ℕ} (h : v < 2 ^ k) :
    v ^^^ (2 ^ k - 1) = 2 ^ k - 1 - v := by
  have h2 : 2 ^ k - 1 - v = 2 ^ k - (v + 1) := by omega
  rw [h2]
  apply Nat.eq_of_testBit_eq
  intro i
  rw [Nat.testBit_two_pow_sub_succ h, Nat.testBit_xor, Nat.testBit_two_pow_sub_one]
  by_cases hik : i < k
  · simp [hik]
  · have hvi : v < 2 ^ i :=
      lt_of_lt_of_le h (Nat.pow_le_pow_right (by norm_num) (by omega))
    simp [hik, Nat.testBit_lt_two_pow hvi]

theorem ratTrunc_eq_floor {q : ℚ} (hq : 0 ≤ q) : ratTrunc q = ⌊q⌋ := by
  rw [Rat.floor_def]
  exact Int.tdiv_eq_ediv (Rat.num_nonneg.mpr hq) (Int.natCast_nonneg q.den)

/-! ## C1: temperature compensation -/

/-- C1: for every calibration set and raw ADC value, `_compensate_temperature`
returns `(var1 + var2) / 5120.0` and stores the integer truncation of
`var1 + var2` as the temperature-fine value, where `var1` and `var2` are the
two polynomial terms (`tvar1`, `tvar2`); on the spec's canonical fixture
(`dig_T1 = 27504`, `dig_T2 = 26435`, `dig_T3 = -1000`, `adc_t = 519888`) the
temperature is within `1e-3` of the reference value `25.0825` and the stored
temperature-fine value is `128422`.  Arithmetic is modelled exactly over `ℚ`;
the claimed `1e-3` tolerance absorbs IEEE-double rounding. -/
theorem compensate_temperature_spec :
    (∀ (c : CalibrationData) (adc_t : ℤ),
      5120 * (compensate_temperature c adc_t).1 = tvar1 c adc_t + tvar2 c adc_t ∧
      (compensate_temperature c adc_t).2 =
        ratTrunc (5120 * (compensate_temperature c adc_t).1)) ∧
    |(compensate_temperature fixtureCalib 519888).1 - 250825 / 10000| < 1 / 1000 ∧
    (compensate_temperature fixtureCalib 519888).2 = 128422 := by
  have hsum : tvar1 fixtureCalib 519888 + tvar2 fixtureCalib 519888 =
      1077284224155 / 8388608 := by
    norm_num [tvar1, tvar2, fixtureCalib]
  refine ⟨fun c adc_t => ?_, ?_, ?_⟩
  · constructor
    · show 5120 * ((tvar1 c adc_t + tvar2 c adc_t) / 5120) =
        tvar1 c adc_t + tvar2 c adc_t
      field_simp
    · show ratTrunc (tvar1 c adc_t + tvar2 c adc_t) = _
      congr 1
      show tvar1 c adc_t + tvar2 c adc_t =
        5120 * ((tvar1 c adc_t + tvar2 c adc_t) / 5120)
      field_simp
  · show |(tvar1 fixtureCalib 519888 + tvar2 fixtureCalib 519888) / 5120 -
      250825 / 10000| < 1 / 1000
    rw [hsum, abs_sub_lt_iff]
    norm_num
  · show ratTrunc (tvar1 fixtureCalib 519888 + tvar2 fixtureCalib 519888) = 128422
    rw [hsum, ratTrunc_eq_floor (by norm_num), Int.floor_eq_iff]
    norm_num

/-! ## C2: pressure compensation division guard -/

/-- C2: `_compensate_pressure` returns the not-a-number sentinel (modelled
as `none`) exactly when the denominator `var1 = (1.0 + var1 / 32768.0) * dig_P1`
is zero; for every other input it returns a proper value, and being a total
function it never raises on any input — the only data-dependent division is
guarded by the `var1 == 0` check. -/
theorem compensate_pressure_nan_guard (c : CalibrationData) (t_fine adc_p : ℤ) :
    compensate_pressure c t_fine adc_p = none ↔ pressure_var1 c t_fine = 0 := by
  unfold compensate_pressure
  split_ifs with h <;> simp [h]

/-! ## C3: humidity clamp -/

/-- C3: for every calibration set, temperature-fine value and humidity ADC
value, the value returned by `_compensate_humidity` lies in `[0.0, 100.0]`
(the final clamp enforces both bounds; arithmetic modelled exactly over `ℚ`). -/
theorem compensate_humidity_clamped (c : CalibrationData) (t_fine adc_h : ℤ) :
    0 ≤ compensate_humidity c t_fine adc_h ∧
      compensate_humidity c t_fine adc_h ≤ 100 := by
  simp only [compensate_humidity]
  split_ifs with h1 h2
  · exact ⟨by norm_num, le_refl _⟩
  · exact ⟨le_refl _, by norm_num⟩
  · exact ⟨le_of_not_lt h2, le_of_not_lt h1⟩

/-! ## C10: zero-capacity MovingAverage -/

/-- C10: a `MovingAverage` constructed with window capacity `0` is a valid
value (construction succeeds), but the very first `add` fails with
`IndexError` (modelled as `none`): the empty buffer already satisfies the
full test `len(buffer) == window`, so `add` reads `buffer[0]` from an empty
deque. -/
theorem movingAverage_window_zero_add_fails (v : ℚ) :
    initAvg 0 = ⟨0, [], 0⟩ ∧ addAvgE (initAvg 0) v = none := by
  constructor
  · rfl
  · rfl

/-! ## C4: signed 16-bit little-endian round-trip -/

theorem and_bit15 {n : ℕ} (hlt : n < 65536) : n &&& 32768 ≠ 0 ↔ 32768 ≤ n := by
  have key2 : n &&& 32768 = n / 32768 % 2 * 32768 := by
    rw [show (32768 : ℕ) = 2 ^ 15 from by norm_num, Nat.and_two_pow,
      Nat.testBit_to_div_mod]
    norm_num
    rcases Nat.mod_two_eq_zero_or_one (n / 32768) with h | h <;> simp [h]
  rw [key2]
  omega

theorem s16_le_decode {n : ℕ} (hlt : n < 65536) :
    s16_le (n % 256) (n / 256) = if 32768 ≤ n then (n : ℤ) - 65536 else (n : ℤ) := by
  have hval : (n % 256) ||| ((n / 256) <<< 8) = n := by
    rw [Nat.lor_comm, or_shiftLeft_eq_add (n / 256) (n % 256) 8
      (lt_of_lt_of_le (Nat.mod_lt n (by norm_num)) (by norm_num))]
    norm_num
    omega
  simp only [s16_le, hval]
  by_cases hge : 32768 ≤ n
  · rw [if_pos ((and_bit15 hlt).mpr hge), if_pos hge]
    have hx : n ^^^ 65535 = 65535 - n := by
      rw [show (65535 : ℕ) = 2 ^ 16 - 1 from by norm_num,
        xor_all_ones (show n < 2 ^ 16 from by norm_num [hlt])]
    rw [hx]
    omega
  · have hz : n &&& 32768 = 0 := by
      by_contra hcc
      exact hge ((and_bit15 hlt).mp hcc)
    rw [if_neg (not_ne_iff.mpr hz), if_neg hge]

/-- C4: for every integer `s` in `[-32768, 32767]`, decoding the two-byte
little-endian two's-complement encoding of `s` with `_s16_le` yields exactly
`s` (the `value - 65536` fold is applied when bit 15 of `low | (high << 8)`
is set). -/
theorem s16_le_roundtrip (s : ℤ) (hlo : -32768 ≤ s) (hhi : s ≤ 32767) :
    s16_le (enc16 s).1 (enc16 s).2 = s := by
  show s16_le (((s + 65536).toNat % 65536) % 256)
    (((s + 65536).toNat % 65536) / 256) = s
  rw [s16_le_decode (Nat.mod_lt _ (by norm_num))]
  split_ifs with h <;> omega

/-- Witness for C4 at `s = -12345`. -/
theorem s16_le_roundtrip_witness :
    s16_le (enc16 (-12345)).1 (enc16 (-12345)).2 = -12345 :=
  s16_le_roundtrip (-12345) (by norm_num) (by norm_num)

/-! ## C9: raw ADC assembly -/

theorem adc20_eq (a b c : ℕ) (hb : b < 256) (hc : c < 256) :
    ((a <<< 12) ||| (b <<< 4)) ||| (c >>> 4) = 4096 * a + 16 * b + c / 16 := by
  have e1 : (a <<< 12) ||| (b <<< 4) = (a * 256 + b) <<< 4 := by
    have hb4 : b <<< 4 < 2 ^ 12 := by
      rw [Nat.shiftLeft_eq]
      norm_num
      omega
    rw [or_shiftLeft_eq_add a (b <<< 4) 12 hb4, Nat.shiftLeft_eq, Nat.shiftLeft_eq]
    ring
  have e2 : c >>> 4 < 2 ^ 4 := by
    rw [Nat.shiftRight_eq_div_pow]
    norm_num
    omega
  calc ((a <<< 12) ||| (b <<< 4)) ||| (c >>> 4)
      = ((a * 256 + b) <<< 4) ||| (c >>> 4) := by rw [e1]
    _ = (a * 256 + b) * 2 ^ 4 + c >>> 4 := or_shiftLeft_eq_add _ _ 4 e2
    _ = 4096 * a + 16 * b + c / 16 := by
        rw [Nat.shiftRight_eq_div_pow]
        norm_num
        omega

theorem adc16_eq (a b : ℕ) (hb : b < 256) : (a <<< 8) ||| b = 256 * a + b := by
  rw [or_shiftLeft_eq_add a b 8 (lt_of_lt_of_le hb (by norm_num))]
  norm_num
  omega

/-- C9 counterexample: the layout described by the claim's words (low byte
of the triplet right-shifted by 12 bits, `specShiftAdc`) disagrees with the
assembly performed by `read_compensated` (`rawSample`, which right-shifts
the low byte by 4) at the byte triple `(0, 0, 255)`. -/
theorem rawSample_shift_claim_false :
    (rawSample 0 0 255 0 0 0 0 0).1 = 15 ∧
    specShiftAdc 0 0 255 = 0 ∧
    (rawSample 0 0 255 0 0 0 0 0).1 ≠ specShiftAdc 0 0 255 := by
  refine ⟨?_, ?_, ?_⟩ <;> decide

/-- C9 (amended): `read_compensated` assembles a 20-bit pressure count,
a 20-bit temperature count and a 16-bit humidity count from the 8-byte
burst read, left-shifting the most significant byte of each three-byte
group by 12 bits, the middle byte by 4 bits, and right-shifting the low
byte by 4 bits (not 12). -/
theorem rawSample_assembly (d0 d1 d2 d3 d4 d5 d6 d7 : ℕ)
    (h0 : d0 < 256) (h1 : d1 < 256) (h2 : d2 < 256) (h3 : d3 < 256)
    (h4 : d4 < 256) (h5 : d5 < 256) (h6 : d6 < 256) (h7 : d7 < 256) :
    rawSample d0 d1 d2 d3 d4 d5 d6 d7 =
      (4096 * d0 + 16 * d1 + d2 / 16,
       4096 * d3 + 16 * d4 + d5 / 16,
       256 * d6 + d7) ∧
    4096 * d0 + 16 * d1 + d2 / 16 < 2 ^ 20 ∧
    4096 * d3 + 16 * d4 + d5 / 16 < 2 ^ 20 ∧
    256 * d6 + d7 < 2 ^ 16 := by
  refine ⟨?_, ?_, ?_, ?_⟩
  · unfold rawSample
    rw [adc20_eq d0 d1 d2 h1 h2, adc20_eq d3 d4 d5 h4 h5, adc16_eq d6 d7 h7]
  · rw [show (2 : ℕ) ^ 20 = 1048576 from by norm_num]
    omega
  · rw [show (2 : ℕ) ^ 20 = 1048576 from by norm_num]
    omega
  · rw [show (2 : ℕ) ^ 16 = 65536 from by norm_num]
    omega

/-- Witness for C9 (amended) at a concrete byte vector. -/
theorem rawSample_assembly_witness :
    rawSample 18 52 86 120 154 188 222 240 =
      (4096 * 18 + 16 * 52 + 86 / 16,
       4096 * 120 + 16 * 154 + 188 / 16,
       256 * 222 + 240) ∧
    4096 * 18 + 16 * 52 + 86 / 16 < 2 ^ 20 ∧
    4096 * 120 + 16 * 154 + 188 / 16 < 2 ^ 20 ∧
    256 * 222 + 240 < 2 ^ 16 :=
  rawSample_assembly 18 52 86 120 154 188 222 240 (by norm_num) (by norm_num)
    (by norm_num) (by norm_num) (by norm_num) (by norm_num) (by norm_num)
    (by norm_num)

/-! ## C5: MovingAverage window behaviour -/

theorem addAllE_spec : ∀ (vs : List ℚ) (w : ℕ) (buf : List ℚ) (s : ℚ),
    1 ≤ w → s = buf.sum → buf.length ≤ w →
    ∃ st2, addAllE ⟨w, buf, s⟩ vs = some st2 ∧
      st2.window = w ∧
      st2.buffer = (buf ++ vs).drop (buf.length + vs.length - w) ∧
      st2.sum = st2.buffer.sum := by
  intro vs
  induction vs with
  | nil =>
    intro w buf s hw hsum hlen
    refine ⟨⟨w, buf, s⟩, rfl, rfl, ?_, hsum⟩
    show buf = (buf ++ []).drop (buf.length + ([] : List ℚ).length - w)
    have h0 : buf.length + ([] : List ℚ).length - w = 0 := by
      simp only [List.length_nil]
      omega
    rw [h0, List.drop_zero, List.append_nil]
  | cons v vs ih =>
    intro w buf s hw hsum hlen
    by_cases hfull : buf.length = w
    · cases buf with
      | nil =>
        simp only [List.length_nil] at hfull
        omega
      | cons h t =>
        have hstep : addAllE ⟨w, h :: t, s⟩ (v :: vs) =
            addAllE ⟨w, t ++ [v], s - h + v⟩ vs := by
          simp [addAllE, addAvgE, hfull]
        have hsum2 : s - h + v = (t ++ [v]).sum := by
          simp only [List.sum_cons] at hsum
          simp [List.sum_append, hsum]
        have hlen2 : (t ++ [v]).length ≤ w := by
          simp only [List.length_cons] at hfull
          simp only [List.length_append, List.length_cons, List.length_nil]
          omega
        obtain ⟨st2, hrun, hwin, hbuf, hs⟩ := ih w (t ++ [v]) (s - h + v) hw hsum2 hlen2
        refine ⟨st2, ?_, hwin, ?_, hs⟩
        · rw [hstep, hrun]
        · rw [hbuf]
          have hamt : (h :: t).length + (v :: vs).length - w =
              ((t ++ [v]).length + vs.length - w) + 1 := by
            simp only [List.length_cons, List.length_append, List.length_nil] at hfull ⊢
            omega
          rw [hamt, List.cons_append, List.drop_succ_cons, List.append_assoc,
            List.singleton_append]
    · have hlt : buf.length < w := lt_of_le_of_ne hlen hfull
      have hstep : addAllE ⟨w, buf, s⟩ (v :: vs) =
          addAllE ⟨w, buf ++ [v], s + v⟩ vs := by
        simp [addAllE, addAvgE, hfull]
      have hsum2 : s + v = (buf ++ [v]).sum := by
        simp [List.sum_append, hsum]
      have hlen2 : (buf ++ [v]).length ≤ w := by
        simp only [List.length_append, List.length_cons, List.length_nil]
        omega
      obtain ⟨st2, hrun, hwin, hbuf, hs⟩ := ih w (buf ++ [v]) (s + v) hw hsum2 hlen2
      refine ⟨st2, ?_, hwin, ?_, hs⟩
      · rw [hstep, hrun]
      · rw [hbuf]
        have hamt : buf.length + (v :: vs).length - w =
            (buf ++ [v]).length + vs.length - w := by
          simp only [List.length_cons, List.length_append, List.length_nil]
          omega
        rw [hamt, List.append_assoc, List.singleton_append]

/-- C5: for every window capacity `W ≥ 1` and value sequence `vs` added to a
fresh `MovingAverage`, all adds succeed, the buffer afterwards holds exactly
the last `min (length vs) W` values (never more than `W`), `mean()` is
undefined exactly when no value was added, otherwise it equals the
arithmetic mean of those retained values, and for `W = 1` it is the latest
value. -/
theorem movingAverage_spec (W : ℕ) (vs : List ℚ) (hW : 1 ≤ W) :
    ∃ st2, addAllE (initAvg W) vs = some st2 ∧
      st2.buffer = vs.drop (vs.length - W) ∧
      st2.buffer.length = min vs.length W ∧
      (meanAvg st2 = none ↔ vs = []) ∧
      (vs ≠ [] →
        meanAvg st2 = some ((vs.drop (vs.length - W)).sum / ((min vs.length W : ℕ) : ℚ))) ∧
      (W = 1 → ∀ l x, vs = l ++ [x] → meanAvg st2 = some x) := by
  obtain ⟨st2, hrun, hwin, hbuf, hs⟩ := addAllE_spec vs W [] 0 hW (by simp) (by simp)
  have hbuf2 : st2.buffer = vs.drop (vs.length - W) := by
    rw [hbuf]
    simp
  have hlen : st2.buffer.length = min vs.length W := by
    rw [hbuf2, List.length_drop]
    omega
  refine ⟨st2, hrun, hbuf2, hlen, ?_, ?_, ?_⟩
  · unfold meanAvg
    split_ifs with hbe
    · rw [hbe] at hlen
      simp only [List.length_nil] at hlen
      have h0 : vs.length = 0 := by omega
      constructor
      · intro _
        exact List.length_eq_zero.mp h0
      · intro _
        rfl
    · constructor
      · intro hc
        exact absurd hc (by simp)
      · intro hv
        rw [hv] at hbuf2
        simp at hbuf2
        exact absurd hbuf2 hbe
  · intro hne
    have hpos : 0 < vs.length := List.length_pos.mpr hne
    have hbne : st2.buffer ≠ [] := by
      intro hc
      rw [hc] at hlen
      simp only [List.length_nil] at hlen
      omega
    unfold meanAvg
    rw [if_neg hbne, hs, hbuf2, ← hbuf2, hlen]
  · intro hW1 l x hvx
    have hdrop : st2.buffer = [x] := by
      rw [hbuf2, hvx, hW1]
      have hamt : (l ++ [x]).length - 1 = l.length := by
        simp only [List.length_append, List.length_cons, List.length_nil]
        omega
      rw [hamt, List.drop_left]
    unfold meanAvg
    rw [if_neg (by rw [hdrop]; exact List.cons_ne_nil x [])]
    rw [hs, hdrop]
    norm_num

/-- Witness for C5 at `W = 2`, `vs = [1, 2, 3]`. -/
theorem movingAverage_spec_witness :
    ∃ st2, addAllE (initAvg 2) [1, 2, 3] = some st2 ∧
      st2.buffer = [1, 2, 3].drop ([1, 2, 3].length - 2) ∧
      st2.buffer.length = min ([1, 2, 3] : List ℚ).length 2 ∧
      (meanAvg st2 = none ↔ ([1, 2, 3] : List ℚ) = []) ∧
      (([1, 2, 3] : List ℚ) ≠ [] →
        meanAvg st2 = some (([1, 2, 3].drop ([1, 2, 3].length - 2)).sum /
          ((min ([1, 2, 3] : List ℚ).length 2 : ℕ) : ℚ))) ∧
      (2 = 1 → ∀ l x, ([1, 2, 3] : List ℚ) = l ++ [x] → meanAvg st2 = some x) :=
  movingAverage_spec 2 [1, 2, 3] (by norm_num)

/-! ## C8: freeze/reset error policy -/

/-- C8: when the per-tick sensor read raises (modelled as a `none` reading),
the tick swallows the failure (it is a total function) and: under the freeze
policy all three window states are exactly as before the tick, while under
the reset policy all three are replaced by fresh empty windows of the
configured capacity. -/
theorem tick_error_policy (st : LoggerState) (m : ℤ) :
    ((tick st m none).1.tempAvg =
      if st.freezeOnError then st.tempAvg else initAvg st.cfgWindow) ∧
    ((tick st m none).1.pressAvg =
      if st.freezeOnError then st.pressAvg else initAvg st.cfgWindow) ∧
    ((tick st m none).1.humAvg =
      if st.freezeOnError then st.humAvg else initAvg st.cfgWindow) := by
  by_cases hf : st.freezeOnError <;>
    simp only [tick, readPhase, hf, if_true, if_false] <;>
    split_ifs <;> simp

/-! ## C6: MinuteRecord emission discipline -/

theorem readPhase_lastSaved (st : LoggerState) (m : ℤ) (r : Option Reading) :
    (readPhase st m r).lastSaved = st.lastSaved := by
  cases r with
  | none =>
    unfold readPhase
    split_ifs <;> rfl
  | some t =>
    obtain ⟨x, y, z⟩ := t
    rfl

theorem readPhase_lastSuccess_none (st : LoggerState) (m : ℤ) :
    (readPhase st m none).lastSuccess = st.lastSuccess := by
  unfold readPhase
  split_ifs <;> rfl

theorem tick_fst_lastSaved (st : LoggerState) (m : ℤ) (r : Option Reading) :
    (tick st m r).1.lastSaved = some m := by
  simp only [tick]
  split_ifs with h1 h2
  · simp
  · simp
  · push_neg at h1
    exact h1.symm

theorem tick_fst_lastSuccess (st : LoggerState) (m : ℤ) (r : Option Reading) :
    (tick st m r).1.lastSuccess = (readPhase st m r).lastSuccess := by
  simp only [tick]
  split_ifs <;> simp

/-- Invariant carried along a run: `lastSaved` equals the bucket of the
previous tick, and any recorded success bucket is at most it. -/
def INV (st : LoggerState) (mp : Option ℤ) : Prop :=
  st.lastSaved = mp ∧
    ∀ a : ℤ, st.lastSuccess = some a → ∃ b : ℤ, mp = some b ∧ a ≤ b

theorem INV_tick {st : LoggerState} {mp : Option ℤ} (m : ℤ) (r : Option Reading)
    (hinv : INV st mp) (hle : leOpt mp m) : INV (tick st m r).1 (some m) := by
  constructor
  · exact tick_fst_lastSaved st m r
  · intro a ha
    rw [tick_fst_lastSuccess] at ha
    cases r with
    | some t =>
      obtain ⟨x, y, z⟩ := t
      have hma : (some m : Option ℤ) = some a := ha
      refine ⟨m, rfl, ?_⟩
      injection hma with hma2
      omega
    | none =>
      rw [readPhase_lastSuccess_none] at ha
      obtain ⟨b, hbmp, hab⟩ := hinv.2 a ha
      exact ⟨m, rfl, le_trans hab (hle b hbmp)⟩

theorem chainOK_front : ∀ (pre : List (ℤ × Option Reading)) (mp : Option ℤ)
    (suf : List (ℤ × Option Reading)),
    chainOK mp (pre ++ suf) → chainOK mp pre := by
  intro pre
  induction pre with
  | nil =>
    intro mp suf _
    trivial
  | cons hd tl ih =>
    intro mp suf h
    obtain ⟨m1, r1⟩ := hd
    exact ⟨h.1, ih (some m1) suf h.2⟩

theorem chainOK_split : ∀ (pre : List (ℤ × Option Reading)) (mp : Option ℤ)
    (suf : List (ℤ × Option Reading)),
    chainOK mp (pre ++ suf) → chainOK (lastMin mp pre) suf := by
  intro pre
  induction pre with
  | nil =>
    intro mp suf h
    exact h
  | cons hd tl ih =>
    intro mp suf h
    obtain ⟨m1, r1⟩ := hd
    exact ih (some m1) suf h.2

theorem INV_runState : ∀ (l : List (ℤ × Option Reading)) (st : LoggerState)
    (mp : Option ℤ), INV st mp → chainOK mp l →
    INV (runState st l) (lastMin mp l) := by
  intro l
  induction l with
  | nil =>
    intro st mp h _
    exact h
  | cons hd tl ih =>
    intro st mp hinv hch
    obtain ⟨m1, r1⟩ := hd
    exact ih _ _ (INV_tick m1 r1 hinv hch.1) hch.2

theorem addAvg_buffer_ne_nil (st : AvgState) (v : ℚ) : (addAvg st v).buffer ≠ [] := by
  unfold addAvg
  split_ifs <;> simp

theorem payloadReady_set_lastSaved (st : LoggerState) (o : Option ℤ) :
    payloadReady { st with lastSaved := o } = payloadReady st := rfl

theorem payloadReady_success (st : LoggerState) (m : ℤ) (x y z : ℚ) :
    payloadReady (readPhase st m (some (x, y, z))) = true := by
  have h1 := addAvg_buffer_ne_nil st.tempAvg x
  have h2 := addAvg_buffer_ne_nil st.pressAvg y
  have h3 := addAvg_buffer_ne_nil st.humAvg z
  simp [payloadReady, readPhase, h1, h2, h3]

theorem tick_emit_iff {st : LoggerState} {mp : Option ℤ} (m : ℤ) (r : Option Reading)
    (hinv : INV st mp) (hle : leOpt mp m) :
    (tick st m r).2 = true ↔
      (some m ≠ st.lastSaved ∧ (readPhase st m r).lastSuccess = some m) := by
  have hsaved : (readPhase st m r).lastSaved = st.lastSaved := readPhase_lastSaved st m r
  simp only [tick]
  split_ifs with h1 h2
  · rw [hsaved] at h1
    constructor
    · intro _
      exact ⟨h1, h2⟩
    · intro _
      show payloadReady { readPhase st m r with lastSaved := some m } = true
      rw [payloadReady_set_lastSaved]
      cases r with
      | some t =>
        obtain ⟨x, y, z⟩ := t
        exact payloadReady_success st m x y z
      | none =>
        exfalso
        rw [readPhase_lastSuccess_none] at h2
        obtain ⟨b, hbmp, hab⟩ := hinv.2 m h2
        have hbm : b ≤ m := hle b hbmp
        have hmp : mp = some m := by
          rw [hbmp]
          congr 1
          omega
        rw [hinv.1, hmp] at h1
        exact h1 rfl
  · rw [hsaved] at h1
    constructor
    · intro hc
      exact absurd hc (by simp)
    · rintro ⟨_, hs⟩
      exact absurd hs h2
  · push_neg at h1
    rw [hsaved] at h1
    constructor
    · intro hc
      exact absurd hc (by simp)
    · rintro ⟨hne, _⟩
      exact absurd h1 hne

theorem countEmit_zero_of_ne (m : ℤ) : ∀ (l : List (ℤ × Option Reading))
    (st : LoggerState), (∀ p ∈ l, p.1 ≠ m) →
    countEmit m (runEmits st l) = 0 := by
  intro l
  induction l with
  | nil =>
    intro st _
    rfl
  | cons hd tl ih =>
    intro st hne
    obtain ⟨m1, r1⟩ := hd
    have hm1 : m1 ≠ m := hne (m1, r1) (by simp)
    show countEmit m ((m1, (tick st m1 r1).2) :: runEmits (tick st m1 r1).1 tl) = 0
    have hskip : countEmit m ((m1, (tick st m1 r1).2) ::
        runEmits (tick st m1 r1).1 tl) =
        countEmit m (runEmits (tick st m1 r1).1 tl) := by
      simp [countEmit, List.filter_cons, hm1]
    rw [hskip]
    exact ih _ fun p hp => hne p (List.mem_cons_of_mem _ hp)

theorem chainOK_ge : ∀ (l : List (ℤ × Option Reading)) (p0 : ℤ),
    chainOK (some p0) l → ∀ p ∈ l, p0 ≤ p.1 := by
  intro l
  induction l with
  | nil =>
    intro p0 _ p hp
    cases hp
  | cons hd tl ih =>
    intro p0 hch p hp
    obtain ⟨m1, r1⟩ := hd
    obtain ⟨hle0, hch2⟩ := hch
    have h0 : p0 ≤ m1 := hle0 p0 rfl
    rcases List.mem_cons.mp hp with heq | hmem
    · rw [heq]
      exact h0
    · exact le_trans h0 (ih m1 hch2 p hmem)

theorem tick_no_emit_of_saved (st : LoggerState) (m : ℤ) (r : Option Reading)
    (h : st.lastSaved = some m) : (tick st m r).2 = false := by
  simp only [tick]
  split_ifs with h1 h2
  · exact absurd ((readPhase_lastSaved st m r).trans h).symm h1
  · exact absurd ((readPhase_lastSaved st m r).trans h).symm h1
  · rfl

theorem countEmit_run_saved (m : ℤ) : ∀ (l : List (ℤ × Option Reading))
    (st : LoggerState), st.lastSaved = some m → chainOK (some m) l →
    countEmit m (runEmits st l) = 0 := by
  intro l
  induction l with
  | nil =>
    intro st _ _
    rfl
  | cons hd tl ih =>
    intro st hsaved hch
    obtain ⟨m1, r1⟩ := hd
    obtain ⟨hle1, hch2⟩ := hch
    by_cases hm : m1 = m
    · subst hm
      have hemit : (tick st m1 r1).2 = false := tick_no_emit_of_saved st m1 r1 hsaved
      show countEmit m1 ((m1, (tick st m1 r1).2) :: runEmits (tick st m1 r1).1 tl) = 0
      have hskip : countEmit m1 ((m1, (tick st m1 r1).2) ::
          runEmits (tick st m1 r1).1 tl) =
          countEmit m1 (runEmits (tick st m1 r1).1 tl) := by
        simp [countEmit, List.filter_cons, hemit]
      rw [hskip]
      exact ih _ (tick_fst_lastSaved st m1 r1) hch2
    · have hlt : m < m1 := lt_of_le_of_ne (hle1 m rfl) fun hc => hm hc.symm
      show countEmit m ((m1, (tick st m1 r1).2) :: runEmits (tick st m1 r1).1 tl) = 0
      have hskip : countEmit m ((m1, (tick st m1 r1).2) ::
          runEmits (tick st m1 r1).1 tl) =
          countEmit m (runEmits (tick st m1 r1).1 tl) := by
        simp [countEmit, List.filter_cons, hm]
      rw [hskip]
      refine countEmit_zero_of_ne m tl _ ?_
      intro p hp
      have := chainOK_ge tl m1 hch2 p hp
      omega

theorem countEmit_le_one (m : ℤ) : ∀ (l : List (ℤ × Option Reading))
    (st : LoggerState) (mp : Option ℤ), st.lastSaved = mp → chainOK mp l →
    countEmit m (runEmits st l) ≤ 1 := by
  intro l
  induction l with
  | nil =>
    intro st mp _ _
    exact Nat.zero_le 1
  | cons hd tl ih =>
    intro st mp hsaved hch
    obtain ⟨m1, r1⟩ := hd
    obtain ⟨hle1, hch2⟩ := hch
    by_cases hm : m1 = m
    · subst hm
      have htail : countEmit m1 (runEmits (tick st m1 r1).1 tl) = 0 :=
        countEmit_run_saved m1 tl _ (tick_fst_lastSaved st m1 r1) hch2
      show countEmit m1 ((m1, (tick st m1 r1).2) :: runEmits (tick st m1 r1).1 tl) ≤ 1
      have hcount : countEmit m1 ((m1, (tick st m1 r1).2) ::
          runEmits (tick st m1 r1).1 tl) =
          (if (tick st m1 r1).2 = true then 1 else 0) +
            countEmit m1 (runEmits (tick st m1 r1).1 tl) := by
        cases hemit : (tick st m1 r1).2 <;>
          simp [countEmit, List.filter_cons, hemit] <;> omega
      rw [hcount, htail]
      split_ifs <;> norm_num
    · show countEmit m ((m1, (tick st m1 r1).2) :: runEmits (tick st m1 r1).1 tl) ≤ 1
      have hskip : countEmit m ((m1, (tick st m1 r1).2) ::
          runEmits (tick st m1 r1).1 tl) =
          countEmit m (runEmits (tick st m1 r1).1 tl) := by
        simp [countEmit, List.filter_cons, hm]
      rw [hskip]
      exact ih _ (some m1) (tick_fst_lastSaved st m1 r1) hch2

theorem no_success_no_emit (m : ℤ) : ∀ (l : List (ℤ × Option Reading))
    (st : LoggerState) (mp : Option ℤ), INV st mp → chainOK mp l →
    (∀ p ∈ l, p.1 = m → p.2 = none) →
    countEmit m (runEmits st l) = 0 := by
  intro l
  induction l with
  | nil =>
    intro st mp _ _ _
    rfl
  | cons hd tl ih =>
    intro st mp hinv hch hno
    obtain ⟨m1, r1⟩ := hd
    obtain ⟨hle1, hch2⟩ := hch
    have htail : countEmit m (runEmits (tick st m1 r1).1 tl) = 0 :=
      ih _ (some m1) (INV_tick m1 r1 hinv hle1) hch2
        fun p hp hpm => hno p (List.mem_cons_of_mem _ hp) hpm
    by_cases hm : m1 = m
    · subst hm
      have hr : r1 = none := hno (m1, r1) (by simp) rfl
      subst hr
      have hemit : (tick st m1 none).2 = false := by
        cases h2 : (tick st m1 none).2
        · rfl
        · exfalso
          obtain ⟨hne, hsucc⟩ := (tick_emit_iff m1 none hinv hle1).mp h2
          rw [readPhase_lastSuccess_none] at hsucc
          obtain ⟨b, hbmp, hab⟩ := hinv.2 m1 hsucc
          have hbm : b ≤ m1 := hle1 b hbmp
          have hmp : mp = some m1 := by
            rw [hbmp]
            congr 1
            omega
          rw [hinv.1, hmp] at hne
          exact hne rfl
      show countEmit m1 ((m1, (tick st m1 none).2) ::
        runEmits (tick st m1 none).1 tl) = 0
      have hskip : countEmit m1 ((m1, (tick st m1 none).2) ::
          runEmits (tick st m1 none).1 tl) =
          countEmit m1 (runEmits (tick st m1 none).1 tl) := by
        simp [countEmit, List.filter_cons, hemit]
      rw [hskip]
      exact htail
    · show countEmit m ((m1, (tick st m1 r1).2) :: runEmits (tick st m1 r1).1 tl) = 0
      have hskip : countEmit m ((m1, (tick st m1 r1).2) ::
          runEmits (tick st m1 r1).1 tl) =
          countEmit m (runEmits (tick st m1 r1).1 tl) := by
        simp [countEmit, List.filter_cons, hm]
      rw [hskip]
      exact htail

/-- C6: over any run of the sample loop started on a fresh logger whose
store-interval buckets are nondecreasing, (1) a tick writes a MinuteRecord
exactly when its bucket differs from the last bucket for which emission was
attempted (`lastSaved`) and the last successful read, after this tick's
update, lies in that same new bucket; (2) at most one MinuteRecord is ever
written per bucket; (3) no record is written for a bucket in which no read
succeeded. -/
theorem minuteRecord_emission (W : ℕ) (freeze : Bool)
    (inputs : List (ℤ × Option Reading)) (hW : 1 ≤ W)
    (hmono : chainOK none inputs) :
    (∀ pre m r suf, inputs = pre ++ (m, r) :: suf →
      ((tick (runState (initLogger W freeze) pre) m r).2 = true ↔
        (some m ≠ (runState (initLogger W freeze) pre).lastSaved ∧
          (readPhase (runState (initLogger W freeze) pre) m r).lastSuccess =
            some m))) ∧
    (∀ m : ℤ, countEmit m (runEmits (initLogger W freeze) inputs) ≤ 1) ∧
    (∀ m : ℤ, (∀ p ∈ inputs, p.1 = m → p.2 = none) →
      countEmit m (runEmits (initLogger W freeze) inputs) = 0) := by
  have hinv0 : INV (initLogger W freeze) none := by
    constructor
    · rfl
    · intro a ha
      exact absurd ha (by simp [initLogger])
  refine ⟨?_, ?_, ?_⟩
  · intro pre m r suf hsplit
    rw [hsplit] at hmono
    have hchsuf : chainOK (lastMin none pre) ((m, r) :: suf) :=
      chainOK_split pre none ((m, r) :: suf) hmono
    have hinvpre : INV (runState (initLogger W freeze) pre) (lastMin none pre) :=
      INV_runState pre _ none hinv0 (chainOK_front pre none ((m, r) :: suf) hmono)
    exact tick_emit_iff m r hinvpre hchsuf.1
  · intro m
    exact countEmit_le_one m inputs _ none rfl hmono
  · intro m hno
    exact no_success_no_emit m inputs _ none hinv0 hmono hno

/-- Witness for C6 on the run `W = 1`, freeze policy, ticks
`(bucket 0, success), (bucket 0, failure), (bucket 1, success)`. -/
theorem minuteRecord_emission_witness :
    (∀ pre m r suf,
      ([((0 : ℤ), some ((1 : ℚ), 2, 3)), (0, none), (1, some (4, 5, 6))] :
          List (ℤ × Option Reading)) = pre ++ (m, r) :: suf →
      ((tick (runState (initLogger 1 true) pre) m r).2 = true ↔
        (some m ≠ (runState (initLogger 1 true) pre).lastSaved ∧
          (readPhase (runState (initLogger 1 true) pre) m r).lastSuccess =
            some m))) ∧
    (∀ m : ℤ, countEmit m (runEmits (initLogger 1 true)
      [((0 : ℤ), some ((1 : ℚ), 2, 3)), (0, none), (1, some (4, 5, 6))]) ≤ 1) ∧
    (∀ m : ℤ, (∀ p ∈ ([((0 : ℤ), some ((1 : ℚ), 2, 3)), (0, none),
        (1, some (4, 5, 6))] : List (ℤ × Option Reading)),
        p.1 = m → p.2 = none) →
      countEmit m (runEmits (initLogger 1 true)
        [((0 : ℤ), some ((1 : ℚ), 2, 3)), (0, none), (1, some (4, 5, 6))]) = 0) :=
  minuteRecord_emission 1 true
    [((0 : ℤ), some ((1 : ℚ), 2, 3)), (0, none), (1, some (4, 5, 6))]
    (by norm_num)
    (by
      refine ⟨?_, ?_, ?_, trivial⟩ <;> intro b hb <;> simp at hb <;> omega)
